import Mathlib

/-!
Verification development for the `wsp` multi-repository workspace manager.

Strings are modelled as `List Char` (`Str`); Rust's string operations
(`split`, `splitn`, `rfind`, `strip_prefix`, `strip_suffix`, `join`) are
defined below as executable Lean functions with the same semantics.
Fallible Rust functions returning `anyhow::Result` are modelled as
`Except String`.  Calls into the `git` subprocess are modelled as oracle
structures whose fields give the result of each git query, so the pure
control flow of the Rust source can be stated and proved exactly.
-/

abbrev Str := List Char

/-- Models Rust `Result::unwrap_or`. -/
def exceptD {ε α : Type} (x : Except ε α) (d : α) : α :=
  match x with
  | .ok a => a
  | .error _ => d

namespace WspStr

/-- Splits on every occurrence of `c`; like Rust `str::split`, the result is
always non-empty and `splitOnC c [] = [[]]`. -/
def splitOnC (c : Char) : Str → List Str
  | [] => [[]]
  | a :: rest =>
    let r := splitOnC c rest
    if a = c then [] :: r else (a :: r.headD []) :: r.tail

/-- Joins with separator `c`; models Rust `slice::join` for a one-char
separator. -/
def joinC (c : Char) : List Str → Str
  | [] => []
  | [x] => x
  | x :: y :: ys => x ++ c :: joinC c (y :: ys)

/-- Splits at the first occurrence of `c`: models Rust `splitn(2, c)`
returning two pieces, or `none` when `c` does not occur (one piece). -/
def splitFirst (c : Char) : Str → Option (Str × Str)
  | [] => none
  | a :: rest =>
    if a = c then some ([], rest)
    else (splitFirst c rest).map (fun p => (a :: p.1, p.2))

/-- Splits at the last occurrence of `c`: models Rust `rfind(c)` together
with the two slices around the found index. -/
def lastSplit (c : Char) : Str → Option (Str × Str)
  | [] => none
  | a :: rest =>
    match lastSplit c rest with
    | some p => some (a :: p.1, p.2)
    | none => if a = c then some ([], rest) else none

/-- Models Rust `str::strip_prefix`. -/
def stripPre : Str → Str → Option Str
  | [], s => some s
  | _ :: _, [] => none
  | a :: p, b :: s => if a = b then stripPre p s else none

/-- Models Rust `str::starts_with`. -/
def isPre (p s : Str) : Bool := (stripPre p s).isSome

/-- Models Rust `str::strip_suffix(suf).unwrap_or(s)`. -/
def stripSufD (suf s : Str) : Str :=
  if suf <:+ s then s.take (s.length - suf.length) else s

/-- Models Rust `str::contains(c)` for a single character. -/
def hasC (c : Char) (s : Str) : Bool := s.contains c

theorem splitOnC_ne_nil (c : Char) (s : Str) : splitOnC c s ≠ [] := by
  cases s with
  | nil => simp [splitOnC]
  | cons a rest => simp only [splitOnC]; split <;> simp

theorem splitOnC_noC (c : Char) (s : Str) (h : c ∉ s) : splitOnC c s = [s] := by
  induction s with
  | nil => rfl
  | cons a rest ih =>
    simp only [List.mem_cons, not_or] at h
    simp only [splitOnC, ih h.2]
    rw [if_neg (by exact fun hac => h.1 hac.symm)]
    rfl

theorem splitOnC_append (c : Char) (o r : Str) (hr : c ∉ r) :
    splitOnC c (o ++ c :: r) = splitOnC c o ++ [r] := by
  induction o with
  | nil =>
    simp [splitOnC, splitOnC_noC c r hr]
  | cons a o' ih =>
    have hne := splitOnC_ne_nil c o'
    cases hsp : splitOnC c o' with
    | nil => exact absurd hsp hne
    | cons g gs =>
      simp only [List.cons_append, splitOnC, ih, hsp]
      by_cases hac : a = c
      · simp [hac, ih, hsp]
      · simp [hac, ih, hsp]

theorem joinC_single (c : Char) (x : Str) : joinC c [x] = x := rfl

theorem joinC_cons₂ (c : Char) (x y : Str) (ys : List Str) :
    joinC c (x :: y :: ys) = x ++ c :: joinC c (y :: ys) := rfl

theorem joinC_splitOnC (c : Char) (s : Str) : joinC c (splitOnC c s) = s := by
  induction s with
  | nil => rfl
  | cons a rest ih =>
    have hne := splitOnC_ne_nil c rest
    simp only [splitOnC]
    cases hsp : splitOnC c rest with
    | nil => exact absurd hsp hne
    | cons g gs =>
      rw [hsp] at ih
      by_cases hac : a = c
      · subst hac
        rw [if_pos rfl, joinC_cons₂, List.nil_append, ih]
      · rw [if_neg hac]
        cases gs with
        | nil =>
          simp only [joinC_single] at ih
          simp only [List.headD, List.tail, joinC_single, ih]
        | cons y ys =>
          simp only [joinC_cons₂] at ih
          simp only [List.headD, List.tail, joinC_cons₂, List.cons_append, ih]

theorem splitFirst_append (c : Char) (h p : Str) (hh : c ∉ h) :
    splitFirst c (h ++ c :: p) = some (h, p) := by
  induction h with
  | nil => simp [splitFirst]
  | cons a h' ih =>
    simp only [List.mem_cons, not_or] at hh
    simp only [List.cons_append, splitFirst]
    rw [if_neg (by exact fun hac => hh.1 hac.symm)]
    rw [show (h' : Str).append (c :: p) = h' ++ c :: p from rfl, ih hh.2]
    rfl

theorem lastSplit_noC (c : Char) (s : Str) (h : c ∉ s) : lastSplit c s = none := by
  induction s with
  | nil => rfl
  | cons a rest ih =>
    simp only [List.mem_cons, not_or] at h
    simp only [lastSplit, ih h.2]
    rw [if_neg (by exact fun hac => h.1 hac.symm)]

theorem lastSplit_append (c : Char) (o r : Str) (hr : c ∉ r) :
    lastSplit c (o ++ c :: r) = some (o, r) := by
  induction o with
  | nil => simp [lastSplit, lastSplit_noC c r hr]
  | cons a o' ih => simp [lastSplit, ih]

theorem stripPre_append (p s : Str) : stripPre p (p ++ s) = some s := by
  induction p with
  | nil => rfl
  | cons a p' ih => simp [stripPre, ih]

theorem stripSufD_append (suf x : Str) : stripSufD suf (x ++ suf) = x := by
  unfold stripSufD
  rw [if_pos ⟨x, rfl⟩]
  simp [List.length_append]

theorem stripSufD_of_not_suffix (suf s : Str) (h : ¬ suf <:+ s) :
    stripSufD suf s = s := by
  unfold stripSufD
  rw [if_neg h]

end WspStr

open WspStr

/-! ### `giturl::parse_repo_ref` (claim C8)

Source (src/src/giturl.rs):
```
pub fn parse_repo_ref(arg: &str) -> (&str, &str) {
    match arg.rfind('@') {
        Some(i) if i < arg.len() - 1 => (&arg[..i], &arg[i + 1..]),
        _ => (arg, ""),
    }
}
```
`rfind('@') = Some i` with `i < len - 1` means the last `'@'` has at least
one character after it, i.e. `lastSplit '@' arg = some (n, rf)` with
`rf ≠ []`.  Both the `None` case and the `i = len - 1` (trailing `'@'`)
case fall through to `(arg, "")`. -/

def parse_repo_ref (arg : Str) : Str × Str :=
  match lastSplit '@' arg with
  | some (n, rf) => if rf = [] then (arg, []) else (n, rf)
  | none => (arg, [])

/-- Claim C8 (corrected claim): `parse_repo_ref` splits its argument on the
last `'@'` into `(name, ref)` whenever at least one character follows that
`'@'`, so SSH-style names containing `'@'` keep everything before the last
`'@'` as the name; an input ending in `'@'` (or containing no `'@'` at all)
yields the empty ref, treated as no pin, with the name being the entire
input unchanged (the trailing `'@'` is kept, not removed). -/
theorem parse_repo_ref_spec (name rf s : Str) :
    (rf ≠ [] → '@' ∉ rf → parse_repo_ref (name ++ '@' :: rf) = (name, rf))
    ∧ ('@' ∉ s → parse_repo_ref s = (s, []))
    ∧ (parse_repo_ref (s ++ ['@']) = (s ++ ['@'], [])) := by
  refine ⟨fun hne hmem => ?_, fun hmem => ?_, ?_⟩
  · simp [parse_repo_ref, lastSplit_append '@' name rf hmem, hne]
  · simp [parse_repo_ref, lastSplit_noC '@' s hmem]
  · have : lastSplit '@' (s ++ '@' :: ([] : Str)) = some (s, []) :=
      lastSplit_append '@' s [] (by simp)
    simp [parse_repo_ref, this]

/-- Witness for C8's theorem at concrete inputs: `"user@host/repo@main"`
splits into `("user@host/repo", "main")` and `"repo@"` keeps its trailing
`'@'` in the name with an empty ref. -/
theorem parse_repo_ref_spec_witness :
    parse_repo_ref "user@host/repo@main".toList = ("user@host/repo".toList, "main".toList)
    ∧ parse_repo_ref "repo@".toList = ("repo@".toList, []) := by
  constructor
  · have h := (parse_repo_ref_spec "user@host/repo".toList "main".toList []).1
      (by decide) (by decide)
    simpa using h
  · have h := (parse_repo_ref_spec [] [] "repo".toList).2.2
    simpa using h

/-- Counterexample to C8 as frozen: the claim says an input with a trailing
`'@'` returns the input *with the trailing `'@'` removed* as the name, but
the code returns the whole input: `parse_repo_ref "repo@" = ("repo@", "")`,
and `"repo@" ≠ "repo"`. -/
theorem parse_repo_ref_trailing_counterexample :
    parse_repo_ref "repo@".toList = ("repo@".toList, [])
    ∧ "repo@".toList ≠ "repo".toList := by
  constructor
  · decide
  · decide

/-! ### `giturl` URL/identity parsing (claim C5)

Translated from src/src/giturl.rs: `validate_component`, `validate_parsed`,
`Parsed::identity`, `Parsed::from_identity`, `parse_ssh`, `parse_https`,
`parse`. -/

namespace Giturl

structure Parsed where
  host : Str
  owner : Str
  repo : Str
deriving DecidableEq, Repr

/-- `"git@"` as a character list. -/
def gitAtL : Str := ['g', 'i', 't', '@']

/-- `".git"` as a character list. -/
def dotGitL : Str := ['.', 'g', 'i', 't']

/-- `"https://"` as a character list. -/
def httpsL : Str := ['h', 't', 't', 'p', 's', ':', '/', '/']

def validate_component (s : Str) (label : String) : Except String Unit :=
  if s = [] then .error (label ++ " cannot be empty")
  else if ['.', '.'] <:+: s then .error (label ++ " contains unsafe path component")
  else if ['/'] <+: s ∨ ['/'] <:+ s then .error (label ++ " contains leading/trailing slash")
  else if '\x00' ∈ s then .error (label ++ " contains null byte")
  else .ok ()

def validate_parsed (p : Parsed) : Except String Unit := do
  validate_component p.host "host"
  validate_component p.owner "owner"
  validate_component p.repo "repo"

/-- `format!("{}/{}/{}", host, owner, repo)`. -/
def Parsed.identity (p : Parsed) : Str :=
  p.host ++ '/' :: (p.owner ++ '/' :: p.repo)

/-- `Parsed::from_identity`: `splitn(2, '/')`, then split owner from repo
at the last `'/'` (`rfind`), then validate. -/
def Parsed.from_identity (id : Str) : Except String Parsed :=
  match splitFirst '/' id with
  | none => .error "invalid identity format"
  | some (hst, rest) =>
    if hst = [] ∨ rest = [] then .error "invalid identity format"
    else
      match lastSplit '/' rest with
      | none => .error "invalid identity format (missing owner)"
      | some (ow, rp) =>
        let p : Parsed := ⟨hst, ow, rp⟩
        do
          validate_parsed p
          pure p

def parse_ssh (raw : Str) : Except String Parsed :=
  let wp := (stripPre gitAtL raw).getD raw
  match splitFirst ':' wp with
  | none => .error "invalid SSH URL"
  | some (hst, p1) =>
    let path := stripSufD dotGitL p1
    let segments := splitOnC '/' path
    if segments.length < 2 then .error "invalid SSH URL path"
    else
      let p : Parsed := ⟨hst, joinC '/' segments.dropLast, segments.getLastD []⟩
      do
        validate_parsed p
        pure p

/-- `parse_https`: the source parses via the `url` crate; this models its
behaviour on the accepted grammar `https://HOST/PATH` where `HOST` contains
no `'/'` or `':'` — the crate yields `host_str() = HOST` and
`path() = "/" ++ PATH`, which the source trims with
`trim_start_matches('/')` before stripping `".git"` and splitting. -/
def parse_https (raw : Str) : Except String Parsed :=
  match stripPre httpsL raw with
  | none => .error "invalid URL"
  | some rest =>
    match splitFirst '/' rest with
    | none => .error "invalid URL path"
    | some (hst, p0) =>
      let path0 := p0.dropWhile (fun c => c = '/')
      let path := stripSufD dotGitL path0
      let segments := splitOnC '/' path
      if segments.length < 2 then .error "invalid URL path"
      else
        let p : Parsed := ⟨hst, joinC '/' segments.dropLast, segments.getLastD []⟩
        do
          validate_parsed p
          pure p

def parse (raw : Str) : Except String Parsed :=
  if isPre gitAtL raw then parse_ssh raw else parse_https raw

/-- An SSH URL `git@HOST:PATH`. -/
def sshUrl (host path : Str) : Str := gitAtL ++ (host ++ ':' :: path)

/-- An HTTPS URL `https://HOST/PATH`. -/
def httpsUrl (host path : Str) : Str := httpsL ++ (host ++ '/' :: path)

theorem validate_component_ne_nil {s : Str} {label : String}
    (h : validate_component s label = .ok ()) : s ≠ [] := by
  intro hnil
  simp [validate_component, hnil] at h

theorem validate_component_not_lead {s : Str} {label : String}
    (h : validate_component s label = .ok ()) : ¬ ['/'] <+: s := by
  intro hpre
  unfold validate_component at h
  split at h
  · exact absurd h (by simp)
  · split at h
    · exact absurd h (by simp)
    · rw [if_pos (Or.inl hpre)] at h
      exact absurd h (by simp)

/-- The path `o ++ "/" ++ r` does not end in `".git"` when `r` contains no
slash and does not itself end in `".git"`. -/
theorem not_dotGit_suffix {o r : Str} (hsr : '/' ∉ r) (hgr : ¬ dotGitL <:+ r) :
    ¬ dotGitL <:+ (o ++ '/' :: r) := by
  intro hsuf
  have hslr : ('/' :: r) <:+ (o ++ '/' :: r) := ⟨o, rfl⟩
  rcases List.suffix_or_suffix_of_suffix hsuf hslr with h1 | h2
  · rcases List.suffix_cons_iff.mp h1 with heq | h3
    · have : '.' = '/' := by
        have := congrArg (fun l => l.headD ' ') heq
        simpa [dotGitL] using this
      exact absurd this (by decide)
    · exact hgr h3
  · have : '/' ∈ dotGitL := List.IsSuffix.mem (List.mem_cons_self '/' r) h2
    simp [dotGitL] at this

theorem dropWhile_slash_of_not_lead {o : Str} (X : Str) (hno : o ≠ [])
    (hnl : ¬ ['/'] <+: o) :
    (o ++ X).dropWhile (fun c => c = '/') = o ++ X := by
  cases o with
  | nil => exact absurd rfl hno
  | cons a o' =>
    have ha : a ≠ '/' := by
      intro haeq
      exact hnl ⟨o', by simp [haeq]⟩
    simp [List.dropWhile, ha]

/-- Shared tail of `parse_ssh`/`parse_https` once the path `o ++ "/" ++ r`
has been isolated: splitting, joining and validating recover `(h, o, r)`. -/
theorem segments_step (msg : String) (h o r : Str) (hsr : '/' ∉ r)
    (hvh : validate_component h "host" = .ok ())
    (hvo : validate_component o "owner" = .ok ())
    (hvr : validate_component r "repo" = .ok ()) :
    (if (splitOnC '/' (o ++ '/' :: r)).length < 2 then (.error msg : Except String Parsed)
     else do
       validate_parsed ⟨h, joinC '/' (splitOnC '/' (o ++ '/' :: r)).dropLast,
         (splitOnC '/' (o ++ '/' :: r)).getLastD []⟩
       pure ⟨h, joinC '/' (splitOnC '/' (o ++ '/' :: r)).dropLast,
         (splitOnC '/' (o ++ '/' :: r)).getLastD []⟩) = .ok ⟨h, o, r⟩ := by
  have hsplit := splitOnC_append '/' o r hsr
  have hne := splitOnC_ne_nil '/' o
  simp only [hsplit]
  have hlen : ¬ (splitOnC '/' o ++ [r]).length < 2 := by
    cases hsp : splitOnC '/' o with
    | nil => exact absurd hsp hne
    | cons g gs =>
      simp only [hsp, List.length_append, List.length_cons, List.length_singleton]
      omega
  rw [if_neg hlen]
  have hdl : (splitOnC '/' o ++ [r]).dropLast = splitOnC '/' o := List.dropLast_concat
  have hgl : (splitOnC '/' o ++ [r]).getLastD [] = r := List.getLastD_concat _ _ _
  rw [hdl, hgl, joinC_splitOnC]
  simp only [validate_parsed, hvh, hvo, hvr]
  rfl

/-- Claim C5: for every URL in the accepted grammar (SSH
`git@HOST:OWNER/REPO` and HTTPS `https://HOST/OWNER/REPO`, each with or
without a `.git` suffix, nested owners allowed), `parse` yields the
identity `(HOST, OWNER, REPO)` whose components pass validation, all four
variants parse to the same identity, and `from_identity` applied to the
canonical `host/owner/repo` string reproduces the same triple. -/
theorem parse_url_roundtrip (h o r : Str)
    (hch : ':' ∉ h) (hsh : '/' ∉ h)
    (hvh : validate_component h "host" = .ok ())
    (hvo : validate_component o "owner" = .ok ())
    (hvr : validate_component r "repo" = .ok ())
    (hsr : '/' ∉ r) (hgr : ¬ dotGitL <:+ r) :
    parse (sshUrl h (o ++ '/' :: r)) = .ok ⟨h, o, r⟩
    ∧ parse (sshUrl h ((o ++ '/' :: r) ++ dotGitL)) = .ok ⟨h, o, r⟩
    ∧ parse (httpsUrl h (o ++ '/' :: r)) = .ok ⟨h, o, r⟩
    ∧ parse (httpsUrl h ((o ++ '/' :: r) ++ dotGitL)) = .ok ⟨h, o, r⟩
    ∧ Parsed.from_identity (Parsed.identity ⟨h, o, r⟩) = .ok ⟨h, o, r⟩
    ∧ validate_parsed ⟨h, o, r⟩ = .ok () := by
  have hono : o ≠ [] := validate_component_ne_nil hvo
  have honl : ¬ ['/'] <+: o := validate_component_not_lead hvo
  have hnog : ¬ dotGitL <:+ (o ++ '/' :: r) := not_dotGit_suffix hsr hgr
  refine ⟨?_, ?_, ?_, ?_, ?_, ?_⟩
  · -- SSH without .git
    have hpre : isPre gitAtL (sshUrl h (o ++ '/' :: r)) = true := by
      simp [isPre, sshUrl, stripPre_append]
    simp only [parse, hpre, if_pos]
    unfold parse_ssh
    rw [show stripPre gitAtL (sshUrl h (o ++ '/' :: r))
        = some (h ++ ':' :: (o ++ '/' :: r)) from stripPre_append _ _]
    simp only [Option.getD_some]
    rw [splitFirst_append ':' h (o ++ '/' :: r) hch]
    simp only
    rw [stripSufD_of_not_suffix _ _ hnog]
    exact segments_step _ h o r hsr hvh hvo hvr
  · -- SSH with .git
    have hpre : isPre gitAtL (sshUrl h ((o ++ '/' :: r) ++ dotGitL)) = true := by
      simp [isPre, sshUrl, stripPre_append]
    simp only [parse, hpre, if_pos]
    unfold parse_ssh
    rw [show stripPre gitAtL (sshUrl h ((o ++ '/' :: r) ++ dotGitL))
        = some (h ++ ':' :: ((o ++ '/' :: r) ++ dotGitL)) from stripPre_append _ _]
    simp only [Option.getD_some]
    rw [splitFirst_append ':' h ((o ++ '/' :: r) ++ dotGitL) hch]
    simp only
    rw [stripSufD_append]
    exact segments_step _ h o r hsr hvh hvo hvr
  · -- HTTPS without .git
    have hpre : isPre gitAtL (httpsUrl h (o ++ '/' :: r)) = false := by
      simp [isPre, httpsUrl, httpsL, gitAtL, stripPre]
    simp only [parse, hpre, Bool.false_eq_true, if_false]
    unfold parse_https
    rw [show stripPre httpsL (httpsUrl h (o ++ '/' :: r))
        = some (h ++ '/' :: (o ++ '/' :: r)) from stripPre_append _ _]
    simp only
    rw [splitFirst_append '/' h (o ++ '/' :: r) hsh]
    simp only
    rw [show (o ++ '/' :: r).dropWhile (fun c => c = '/') = o ++ '/' :: r from
      dropWhile_slash_of_not_lead ('/' :: r) hono honl]
    rw [stripSufD_of_not_suffix _ _ hnog]
    exact segments_step _ h o r hsr hvh hvo hvr
  · -- HTTPS with .git
    have hpre : isPre gitAtL (httpsUrl h ((o ++ '/' :: r) ++ dotGitL)) = false := by
      simp [isPre, httpsUrl, httpsL, gitAtL, stripPre]
    simp only [parse, hpre, Bool.false_eq_true, if_false]
    unfold parse_https
    rw [show stripPre httpsL (httpsUrl h ((o ++ '/' :: r) ++ dotGitL))
        = some (h ++ '/' :: ((o ++ '/' :: r) ++ dotGitL)) from stripPre_append _ _]
    simp only
    rw [splitFirst_append '/' h ((o ++ '/' :: r) ++ dotGitL) hsh]
    simp only
    rw [show ((o ++ '/' :: r) ++ dotGitL).dropWhile (fun c => c = '/')
        = (o ++ '/' :: r) ++ dotGitL from by
      rw [List.append_assoc]
      exact dropWhile_slash_of_not_lead ('/' :: r ++ dotGitL) hono honl]
    rw [stripSufD_append]
    exact segments_step _ h o r hsr hvh hvo hvr
  · -- from_identity round trip
    unfold Parsed.from_identity Parsed.identity
    rw [splitFirst_append '/' h (o ++ '/' :: r) hsh]
    simp only
    have hhn : h ≠ [] := validate_component_ne_nil hvh
    have hrn : (o ++ '/' :: r) ≠ [] := by
      cases o <;> simp
    rw [if_neg (by simp [hhn, hrn])]
    rw [lastSplit_append '/' o r hsr]
    simp only [validate_parsed, hvh, hvo, hvr]
    rfl
  · simp only [validate_parsed, hvh, hvo, hvr]
    rfl

/-- Witness for C5's theorem at `github.com / org/sub / project` (a nested
owner), checking all four URL shapes and the identity round trip. -/
theorem parse_url_roundtrip_witness :
    parse (sshUrl "github.com".toList ("org/sub".toList ++ '/' :: "project".toList))
      = .ok ⟨"github.com".toList, "org/sub".toList, "project".toList⟩
    ∧ parse (httpsUrl "github.com".toList
        (("org/sub".toList ++ '/' :: "project".toList) ++ dotGitL))
      = .ok ⟨"github.com".toList, "org/sub".toList, "project".toList⟩ := by
  have h := parse_url_roundtrip "github.com".toList "org/sub".toList "project".toList
    (by decide) (by decide) (by rfl) (by rfl) (by rfl) (by decide) (by decide)
  exact ⟨h.1, h.2.2.2.1⟩

end Giturl

/-! ### `giturl::shortnames` (claim C6)

Translated from src/src/giturl.rs `shortnames`: each identity is pre-split
on `'/'`; for each index the depths `1..=parts.len()` are probed in order
and the first depth whose suffix no other identity matches is taken; if no
depth works the full identity is used.  The Rust `HashMap` keyed by
identity is modelled as the list of `(identity, shortname)` pairs in index
order, which carries the same mapping for duplicate-free inputs. -/

namespace Giturl

/-- `parts[parts.len()-depth..]`: the suffix of the last `d` segments. -/
def suffixAt (parts : List Str) (d : Nat) : List Str :=
  parts.drop (parts.length - d)

/-- The uniqueness probe of the inner loop:
`split.iter().enumerate().all(|(j, other)| j == idx || other.len() < depth
|| other[other.len()-depth..] != *candidate)`, with the enumeration
expressed over `List.range` and indexing via `getD`. -/
def isUniqueAt (split : List (List Str)) (idx d : Nat) (cand : List Str) : Bool :=
  (List.range split.length).all fun j =>
    j == idx || decide ((split.getD j []).length < d)
      || !(suffixAt (split.getD j []) d == cand)

/-- `for depth in d..(d+k) { if p depth { break } }` returning the first
depth accepted; `shortnames` runs it with `d = 1`, `k = parts.len()`. -/
def firstDepth (p : Nat → Bool) : Nat → Nat → Option Nat
  | _, 0 => none
  | d, k + 1 => if p d then some d else firstDepth p (d + 1) k

/-- The candidate-uniqueness probe for identity index `idx` at depth `d`
(the loop body's `candidate` plus the `all` check, as one function). -/
def probeAt (identities : List Str) (idx : Nat) : Nat → Bool := fun d =>
  isUniqueAt (identities.map (splitOnC '/')) idx d
    (suffixAt ((identities.map (splitOnC '/')).getD idx []) d)

def shortnames (identities : List Str) : List (Str × Str) :=
  (List.range identities.length).map fun idx =>
    let parts := (identities.map (splitOnC '/')).getD idx []
    let id := identities.getD idx []
    match firstDepth (probeAt identities idx) 1 parts.length with
    | some d => (id, joinC '/' (suffixAt parts d))
    | none => (id, id)

/-- `j` shares with `i` its `/`-aligned suffix of depth `d`. -/
def sharesSuffix (j i : Str) (d : Nat) : Prop :=
  d ≤ (splitOnC '/' j).length
    ∧ suffixAt (splitOnC '/' j) d = suffixAt (splitOnC '/' i) d

/-- The depth-`d` suffix of `i` is unique across `S` (no other identity of
`S` shares it); stated from the specification's words. -/
def uniqueVal (S : List Str) (i : Str) (d : Nat) : Prop :=
  ∀ j ∈ S, j ≠ i → ¬ sharesSuffix j i d

theorem firstDepth_some {p : Nat → Bool} :
    ∀ k d e, firstDepth p d k = some e →
      p e = true ∧ d ≤ e ∧ e < d + k ∧ ∀ x, d ≤ x → x < e → p x = false := by
  intro k
  induction k with
  | zero => intro d e h; exact absurd h (by simp [firstDepth])
  | succ k ih =>
    intro d e h
    by_cases hp : p d
    · simp only [firstDepth, hp, if_true] at h
      cases h
      exact ⟨hp, le_refl _, by omega, fun x hx1 hx2 => absurd hx1 (by omega)⟩
    · simp only [firstDepth, hp, if_false] at h
      obtain ⟨h1, h2, h3, h4⟩ := ih (d + 1) e h
      refine ⟨h1, by omega, by omega, fun x hx1 hx2 => ?_⟩
      by_cases hxd : x = d
      · subst hxd; exact Bool.eq_false_iff.mpr hp
      · exact h4 x (by omega) hx2

theorem firstDepth_none {p : Nat → Bool} :
    ∀ k d, firstDepth p d k = none → ∀ x, d ≤ x → x < d + k → p x = false := by
  intro k
  induction k with
  | zero => intro d _ x hx1 hx2; omega
  | succ k ih =>
    intro d h x hx1 hx2
    by_cases hp : p d
    · simp [firstDepth, hp] at h
    · simp only [firstDepth, hp, if_false] at h
      by_cases hxd : x = d
      · subst hxd; exact Bool.eq_false_iff.mpr hp
      · exact ih (d + 1) h x (by omega) (by omega)

theorem isUniqueAt_iff (S : List Str) (hnd : S.Nodup) (idx : Nat)
    (hidx : idx < S.length) (d : Nat) :
    isUniqueAt (S.map (splitOnC '/')) idx d
        (suffixAt (splitOnC '/' (S.getD idx [])) d) = true
      ↔ uniqueVal S (S.getD idx []) d := by
  have hmap : ∀ j, j < S.length →
      (S.map (splitOnC '/')).getD j [] = splitOnC '/' (S.getD j []) := by
    intro j hj
    rw [List.getD_eq_getElem _ [] (by simpa using hj), List.getD_eq_getElem _ [] hj,
      List.getElem_map]
  constructor
  · intro hall j hj hne
    rintro ⟨hlen, hsuf⟩
    obtain ⟨jdx, hjdx, hjval⟩ := List.mem_iff_getElem.mp hj
    have hjval' : S.getD jdx [] = j := by
      rw [List.getD_eq_getElem _ [] hjdx, hjval]
    have hjne : jdx ≠ idx := by
      intro hEq
      rw [hEq] at hjval'
      rw [hjval'] at hne
      exact hne rfl
    have hone := (List.all_eq_true.mp hall) jdx
      (by simpa [List.mem_range, List.length_map])
    simp only [Bool.or_eq_true, beq_iff_eq, decide_eq_true_eq, Bool.not_eq_true',
      beq_eq_false_iff_ne, ne_eq] at hone
    rcases hone with (h1 | h2) | h3
    · exact hjne h1
    · rw [hmap jdx hjdx, hjval'] at h2; omega
    · rw [hmap jdx hjdx, hjval'] at h3
      exact h3 hsuf
  · intro huniq
    apply List.all_eq_true.mpr
    intro j hjr
    have hj : j < S.length := by simpa [List.mem_range, List.length_map] using hjr
    simp only [Bool.or_eq_true, beq_iff_eq, decide_eq_true_eq, Bool.not_eq_true',
      beq_eq_false_iff_ne, ne_eq]
    by_cases hje : j = idx
    · exact Or.inl (Or.inl hje)
    · have hne : S.getD j [] ≠ S.getD idx [] := by
        intro hEq
        apply hje
        rw [List.getD_eq_getElem _ [] hj, List.getD_eq_getElem _ [] hidx] at hEq
        exact (List.Nodup.getElem_inj_iff hnd).mp hEq
      have hmem : S.getD j [] ∈ S := by
        rw [List.getD_eq_getElem _ [] hj]
        exact List.getElem_mem hj
      have hshares := huniq (S.getD j []) hmem hne
      simp only [sharesSuffix, not_and] at hshares
      rw [hmap j hj]
      by_cases hlen : d ≤ (splitOnC '/' (S.getD j [])).length
      · exact Or.inr (hshares hlen)
      · exact Or.inl (Or.inr (by omega))

/-- Claim C6: for any duplicate-free set `S` of identity strings,
`shortnames S` maps each `i ∈ S` to a `/`-aligned suffix of `i`; when some
depth has a suffix no other identity of `S` shares, the chosen shortname is
the suffix of the smallest such depth (and it is unique across `S`); when
no depth works the full identity `i` itself is returned. -/
theorem shortnames_spec (S : List Str) (hnd : S.Nodup) (i : Str) (hi : i ∈ S) :
    ∃ short, (i, short) ∈ shortnames S
      ∧ (∃ d, 1 ≤ d ∧ d ≤ (splitOnC '/' i).length
          ∧ short = joinC '/' (suffixAt (splitOnC '/' i) d))
      ∧ ((∃ d, 1 ≤ d ∧ d ≤ (splitOnC '/' i).length ∧ uniqueVal S i d) →
          ∃ d, 1 ≤ d ∧ short = joinC '/' (suffixAt (splitOnC '/' i) d)
            ∧ uniqueVal S i d ∧ ∀ e, 1 ≤ e → e < d → ¬ uniqueVal S i e)
      ∧ ((∀ d, 1 ≤ d → d ≤ (splitOnC '/' i).length → ¬ uniqueVal S i d) →
          short = i) := by
  obtain ⟨idx, hidx, hival⟩ := List.mem_iff_getElem.mp hi
  have hgd : S.getD idx [] = i := by
    rw [List.getD_eq_getElem S [] hidx, hival]
  have hpartsD : (S.map (splitOnC '/')).getD idx [] = splitOnC '/' i := by
    rw [List.getD_eq_getElem _ [] (by simpa using hidx), List.getElem_map, hival]
  have hlen1 : 1 ≤ (splitOnC '/' i).length :=
    List.length_pos.mpr (splitOnC_ne_nil '/' i)
  have hpEq : ∀ d, probeAt S idx d = true ↔ uniqueVal S i d := by
    intro d
    have h1 := isUniqueAt_iff S hnd idx hidx d
    rw [hgd] at h1
    unfold probeAt
    rw [hpartsD]
    exact h1
  cases hfd : firstDepth (probeAt S idx) 1 ((S.map (splitOnC '/')).getD idx []).length with
  | some d =>
    obtain ⟨hpd, hd1, hdlt, hmin⟩ := firstDepth_some _ _ _ hfd
    have hdle : d ≤ (splitOnC '/' i).length := by
      rw [hpartsD] at hdlt; omega
    refine ⟨joinC '/' (suffixAt (splitOnC '/' i) d), ?_, ?_, ?_, ?_⟩
    · unfold shortnames
      apply List.mem_map.mpr
      refine ⟨idx, List.mem_range.mpr hidx, ?_⟩
      simp only
      rw [hfd, hgd, hpartsD]
    · exact ⟨d, hd1, hdle, rfl⟩
    · intro _
      refine ⟨d, hd1, rfl, (hpEq d).mp hpd, fun e he1 he2 => ?_⟩
      intro huv
      have hfalse : probeAt S idx e = false := hmin e he1 he2
      rw [← Bool.not_eq_true] at hfalse
      exact hfalse ((hpEq e).mpr huv)
    · intro hnone
      exact absurd ((hpEq d).mp hpd) (hnone d hd1 hdle)
  | none =>
    have hall := firstDepth_none _ _ hfd
    refine ⟨i, ?_, ?_, ?_, fun _ => rfl⟩
    · unfold shortnames
      apply List.mem_map.mpr
      refine ⟨idx, List.mem_range.mpr hidx, ?_⟩
      simp only
      rw [hfd, hgd]
    · refine ⟨(splitOnC '/' i).length, hlen1, le_refl _, ?_⟩
      simp [suffixAt, joinC_splitOnC]
    · rintro ⟨d, hd1, hdle, huv⟩
      have hfalse : probeAt S idx d = false := by
        apply hall d hd1
        rw [hpartsD]; omega
      rw [← Bool.not_eq_true] at hfalse
      exact absurd ((hpEq d).mpr huv) hfalse

/-- Witness for C6's theorem: with two identities sharing the repo segment
`repo-a`, each gets a shortname entry; the theorem applies at the first. -/
theorem shortnames_spec_witness :
    ∃ short, ("github.com/user/repo-a".toList, short) ∈
      shortnames ["github.com/user/repo-a".toList, "github.com/other/repo-a".toList] := by
  obtain ⟨short, hmem, -, -, -⟩ :=
    shortnames_spec
      ["github.com/user/repo-a".toList, "github.com/other/repo-a".toList]
      (by decide) "github.com/user/repo-a".toList (by decide)
  exact ⟨short, hmem⟩

end Giturl

/-! ### `git::branch_safety` (claim C1)

Translated from src/src/git.rs.  The four detectors each run one or more
git subprocesses: `branch_is_merged` (merge-base --is-ancestor),
`branch_is_squash_merged` (commit-tree + cherry), `is_content_merged`
(diff --name-only + diff --quiet), and `remote_branch_exists`
(rev-parse --verify, which already swallows errors into `false`).  They
are modelled as an oracle giving each detector's outcome for a
`(branch, target)` pair; `branch_safety` consults them with
`.unwrap_or(false)` in the fixed source order. -/

namespace Git

inductive BranchSafety
  | Merged
  | SquashMerged
  | PushedToRemote
  | Unmerged
deriving DecidableEq, Repr

/-- Oracle for the four detectors consulted by `branch_safety` in a given
clone directory. -/
structure SafetyOracle where
  branch_is_merged : Str → Str → Except String Bool
  branch_is_squash_merged : Str → Str → Except String Bool
  is_content_merged : Str → Str → Except String Bool
  remote_branch_exists : Str → Bool

def branch_safety (g : SafetyOracle) (branch target : Str) : BranchSafety :=
  if exceptD (g.branch_is_merged branch target) false then .Merged
  else if exceptD (g.branch_is_squash_merged branch target) false then .SquashMerged
  else if exceptD (g.is_content_merged branch target) false then .SquashMerged
  else if g.remote_branch_exists branch then .PushedToRemote
  else .Unmerged

/-- The oracle with every fallible detector's error collapsed to
`Ok(false)`: the semantics the claim ascribes to a failing detector. -/
def degradeErrors (g : SafetyOracle) : SafetyOracle where
  branch_is_merged := fun b t => .ok (exceptD (g.branch_is_merged b t) false)
  branch_is_squash_merged := fun b t => .ok (exceptD (g.branch_is_squash_merged b t) false)
  is_content_merged := fun b t => .ok (exceptD (g.is_content_merged b t) false)
  remote_branch_exists := g.remote_branch_exists

/-- Claim C1: `branch_safety` is total and ordered — for every oracle and
`(branch, target)` pair it returns exactly one of the four variants and
never errors; detectors are consulted in the fixed order ancestor →
patch-id → content → remote-existence, the first positive detector
determines the result, and a detector that errors behaves exactly as if it
had answered `false` (the next detector is tried). -/
theorem branch_safety_total_ordered (g : SafetyOracle) (b t : Str) :
    (branch_safety g b t = .Merged ∨ branch_safety g b t = .SquashMerged
      ∨ branch_safety g b t = .PushedToRemote ∨ branch_safety g b t = .Unmerged)
    ∧ branch_safety (degradeErrors g) b t = branch_safety g b t
    ∧ (exceptD (g.branch_is_merged b t) false = true →
        branch_safety g b t = .Merged)
    ∧ (exceptD (g.branch_is_merged b t) false = false →
        exceptD (g.branch_is_squash_merged b t) false = true →
        branch_safety g b t = .SquashMerged)
    ∧ (exceptD (g.branch_is_merged b t) false = false →
        exceptD (g.branch_is_squash_merged b t) false = false →
        exceptD (g.is_content_merged b t) false = true →
        branch_safety g b t = .SquashMerged)
    ∧ (exceptD (g.branch_is_merged b t) false = false →
        exceptD (g.branch_is_squash_merged b t) false = false →
        exceptD (g.is_content_merged b t) false = false →
        g.remote_branch_exists b = true →
        branch_safety g b t = .PushedToRemote)
    ∧ (exceptD (g.branch_is_merged b t) false = false →
        exceptD (g.branch_is_squash_merged b t) false = false →
        exceptD (g.is_content_merged b t) false = false →
        g.remote_branch_exists b = false →
        branch_safety g b t = .Unmerged) := by
  refine ⟨?_, ?_, ?_, ?_, ?_, ?_, ?_⟩
  · unfold branch_safety
    split
    · exact Or.inl rfl
    · split
      · exact Or.inr (Or.inl rfl)
      · split
        · exact Or.inr (Or.inl rfl)
        · split
          · exact Or.inr (Or.inr (Or.inl rfl))
          · exact Or.inr (Or.inr (Or.inr rfl))
  · simp [branch_safety, degradeErrors, exceptD]
  · intro h1; simp [branch_safety, h1]
  · intro h1 h2; simp [branch_safety, h1, h2]
  · intro h1 h2 h3; simp [branch_safety, h1, h2, h3]
  · intro h1 h2 h3 h4; simp [branch_safety, h1, h2, h3, h4]
  · intro h1 h2 h3 h4; simp [branch_safety, h1, h2, h3, h4]

/-- Witness for C1's theorem: an oracle whose ancestor detector errors and
whose patch-id detector errors still classifies via the content detector
(errors degrade to `false` and the next detector is tried). -/
theorem branch_safety_total_ordered_witness :
    branch_safety
      { branch_is_merged := fun _ _ => .error "boom"
        branch_is_squash_merged := fun _ _ => .error "boom"
        is_content_merged := fun _ _ => .ok true
        remote_branch_exists := fun _ => false }
      "wip".toList "origin/main".toList = .SquashMerged := by
  exact (branch_safety_total_ordered _ _ _).2.2.2.2.1 rfl rfl rfl

/-! ### `git::rebase_onto` (claim C7)

Translated from src/src/git.rs `rebase_onto`.  The git queries it makes
(`rev-parse`, `merge-base --is-ancestor` via `branch_is_merged`,
`rev-list --count` via `commit_count`, `merge-base`, and the state-changing
`rebase` / `rebase --abort`) are modelled as an oracle; the function
returns its `SyncAction` result (or error) together with the trace of
state-changing git commands it issued, in order. -/

inductive SyncAction
  | UpToDate
  | FastForward (commits : Nat)
  | Rebased (commits : Nat)
  | Merged
deriving DecidableEq, Repr

/-- A state-changing git invocation made by `rebase_onto`. -/
inductive RebaseCmd
  | rebase (target : Str)
  | rebaseAbort
deriving DecidableEq, Repr

/-- Oracle for the git queries of `rebase_onto` in a given clone:
`revParse r` models `rev-parse r`, `isAncestor a b` models
`branch_is_merged dir a b` (`merge-base --is-ancestor a b`),
`commitCount a b` models `commit_count dir a b` (`rev-list --count a..b`),
`mergeBase a b` models `merge-base a b`, and `runRebase t` the outcome of
`git rebase t`. -/
structure RebaseOracle where
  revParse : Str → Except String Str
  isAncestor : Str → Str → Except String Bool
  commitCount : Str → Str → Except String Nat
  mergeBase : Str → Str → Except String Str
  runRebase : Str → Except String Unit

/-- `"HEAD"` as a character list. -/
def headL : Str := ['H', 'E', 'A', 'D']

def rebase_onto (g : RebaseOracle) (target : Str) :
    Except String SyncAction × List RebaseCmd :=
  match g.revParse headL with
  | .error e => (.error e, [])
  | .ok head_sha =>
  match g.revParse target with
  | .error e => (.error e, [])
  | .ok target_sha =>
  if head_sha = target_sha then (.ok .UpToDate, [])
  else
  match g.isAncestor headL target with
  | .error e => (.error e, [])
  | .ok true =>
    match g.commitCount headL target with
    | .error e => (.error e, [])
    | .ok commits =>
      match g.runRebase target with
      | .error e => (.error e, [.rebase target])
      | .ok _ => (.ok (.FastForward commits), [.rebase target])
  | .ok false =>
  match g.isAncestor target headL with
  | .error e => (.error e, [])
  | .ok true => (.ok .UpToDate, [])
  | .ok false =>
  match g.mergeBase headL target with
  | .error e => (.error e, [])
  | .ok mb =>
  match g.commitCount mb headL with
  | .error e => (.error e, [])
  | .ok commits =>
  match g.runRebase target with
  | .ok _ => (.ok (.Rebased commits), [.rebase target])
  | .error e => (.error e, [.rebase target, .rebaseAbort])

/-- Claim C7: `rebase_onto` returns `UpToDate` when HEAD and target resolve
to the same commit or when target is an ancestor of HEAD; returns
`FastForward commits` when HEAD is a strict ancestor of target, with
`commits` the commit count from HEAD to target; returns `Rebased commits`
on diverged histories when the rebase succeeds, with `commits` the count
from the merge-base to HEAD; and when the diverged-history rebase fails it
runs `rebase --abort` after the failed `rebase` (leaving the repository
unchanged) and then surfaces the error. -/
theorem rebase_onto_spec (g : RebaseOracle) (target hsha tsha : Str)
    (hh : g.revParse headL = .ok hsha) (ht : g.revParse target = .ok tsha) :
    (hsha = tsha → rebase_onto g target = (.ok .UpToDate, []))
    ∧ (∀ n, hsha ≠ tsha → g.isAncestor headL target = .ok true →
        g.commitCount headL target = .ok n → g.runRebase target = .ok () →
        rebase_onto g target = (.ok (.FastForward n), [.rebase target]))
    ∧ (hsha ≠ tsha → g.isAncestor headL target = .ok false →
        g.isAncestor target headL = .ok true →
        rebase_onto g target = (.ok .UpToDate, []))
    ∧ (∀ mb n, hsha ≠ tsha → g.isAncestor headL target = .ok false →
        g.isAncestor target headL = .ok false → g.mergeBase headL target = .ok mb →
        g.commitCount mb headL = .ok n → g.runRebase target = .ok () →
        rebase_onto g target = (.ok (.Rebased n), [.rebase target]))
    ∧ (∀ mb n e, hsha ≠ tsha → g.isAncestor headL target = .ok false →
        g.isAncestor target headL = .ok false → g.mergeBase headL target = .ok mb →
        g.commitCount mb headL = .ok n → g.runRebase target = .error e →
        rebase_onto g target = (.error e, [.rebase target, .rebaseAbort])) := by
  refine ⟨?_, ?_, ?_, ?_, ?_⟩
  · intro heq
    simp [rebase_onto, hh, ht, heq]
  · intro n hne ha hc hr
    simp [rebase_onto, hh, ht, hne, ha, hc, hr]
  · intro hne ha1 ha2
    simp [rebase_onto, hh, ht, hne, ha1, ha2]
  · intro mb n hne ha1 ha2 hmb hc hr
    simp [rebase_onto, hh, ht, hne, ha1, ha2, hmb, hc, hr]
  · intro mb n e hne ha1 ha2 hmb hc hr
    simp [rebase_onto, hh, ht, hne, ha1, ha2, hmb, hc, hr]

/-- Witness for C7's theorem: a diverged-history oracle whose rebase fails
yields the error with the trace `rebase target` then `rebase --abort`. -/
theorem rebase_onto_spec_witness :
    rebase_onto
      { revParse := fun r => if r = headL then .ok "aaa".toList else .ok "bbb".toList
        isAncestor := fun _ _ => .ok false
        commitCount := fun _ _ => .ok 2
        mergeBase := fun _ _ => .ok "mmm".toList
        runRebase := fun _ => .error "conflict" }
      "origin/main".toList
      = (.error "conflict", [.rebase "origin/main".toList, .rebaseAbort]) := by
  exact (rebase_onto_spec _ "origin/main".toList "aaa".toList "bbb".toList
    (by rfl) (by rfl)).2.2.2.2 "mmm".toList 2 "conflict"
    (by decide) rfl rfl rfl rfl rfl

end Git

/-! ### Workspace metadata persistence (claim C4)

Translated from src/src/workspace.rs: `WorkspaceRepoRef` (serde field
attribute `skip_serializing_if = "String::is_empty", default` on `ref`),
`Metadata` (attribute `default, skip_serializing_if = "BTreeMap::is_empty"`
on `dirs`), and `save_metadata` / `load_metadata`, which serialize through
serde_yaml_ng.  The YAML document is modelled structurally: a field that
serde omits is an `Option` that is `none`, and deserialization applies the
declared defaults.  `BTreeMap`s are modelled as association lists and the
`created: DateTime<Utc>` timestamp as an opaque `Nat` (chrono's RFC 3339
round trip is the serializer's contract). -/

namespace Workspace

structure WorkspaceRepoRef where
  ref : Str
deriving DecidableEq, Repr

structure Metadata where
  name : Str
  branch : Str
  repos : List (Str × Option WorkspaceRepoRef)
  created : Nat
  dirs : List (Str × Str)
deriving DecidableEq, Repr

/-- A serialized `WorkspaceRepoRef`: `refField = none` models the `ref`
key being omitted from the YAML mapping. -/
structure RepoRefDoc where
  refField : Option Str
deriving DecidableEq, Repr

/-- A serialized `.wsp.yaml` document: `dirsField = none` models the
`dirs` key being absent (as in files written by older versions). -/
structure MetadataDoc where
  name : Str
  branch : Str
  repos : List (Str × Option RepoRefDoc)
  created : Nat
  dirsField : Option (List (Str × Str))
deriving DecidableEq, Repr

/-- `save_metadata`: serialization per the serde derive — the `ref` field
is skipped when the string is empty, the `dirs` key is skipped when the
map is empty. -/
def save_metadata (m : Metadata) : MetadataDoc where
  name := m.name
  branch := m.branch
  repos := m.repos.map fun p =>
    (p.1, p.2.map fun re => ⟨if re.ref = [] then none else some re.ref⟩)
  created := m.created
  dirsField := if m.dirs = [] then none else some m.dirs

/-- `load_metadata`: deserialization per the serde derive — a missing
`ref` field defaults to the empty string, a missing `dirs` key defaults to
the empty map. -/
def load_metadata (d : MetadataDoc) : Metadata where
  name := d.name
  branch := d.branch
  repos := d.repos.map fun p => (p.1, p.2.map fun rd => ⟨rd.refField.getD []⟩)
  created := d.created
  dirs := d.dirsField.getD []

/-- Claim C4: `load_metadata (save_metadata m) = m` for every metadata
value; a serialized document lacking the `dirs` key loads with `dirs`
defaulted to the empty map; and a `WorkspaceRepoRef` whose `ref` string is
empty has its `ref` field omitted from the serialized form. -/
theorem metadata_repos_roundtrip (repos : List (Str × Option WorkspaceRepoRef)) :
    (repos.map fun p =>
        (p.1, p.2.map fun re =>
          (⟨if re.ref = [] then none else some re.ref⟩ : RepoRefDoc))).map
      (fun p => (p.1, p.2.map fun rd => (⟨rd.refField.getD []⟩ : WorkspaceRepoRef)))
      = repos := by
  rw [List.map_map]
  conv_rhs => rw [← List.map_id repos]
  apply List.map_congr_left
  intro p _
  cases p with
  | mk k v =>
    cases v with
    | none => rfl
    | some re =>
      cases re with
      | mk r =>
        by_cases hr : r = []
        · simp [Function.comp, hr]
        · simp [Function.comp, hr]

/-- Claim C4: `load_metadata (save_metadata m) = m` for every metadata
value; a serialized document lacking the `dirs` key loads with `dirs`
defaulted to the empty map; and a `WorkspaceRepoRef` whose `ref` string is
empty has its `ref` field omitted from the serialized form. -/
theorem metadata_roundtrip (m : Metadata) (d : MetadataDoc) (k : Str)
    (re : WorkspaceRepoRef) :
    load_metadata (save_metadata m) = m
    ∧ (d.dirsField = none → (load_metadata d).dirs = [])
    ∧ ((k, some re) ∈ m.repos → re.ref = [] →
        (k, some (⟨none⟩ : RepoRefDoc)) ∈ (save_metadata m).repos) := by
  refine ⟨?_, ?_, ?_⟩
  · cases m with
    | mk name branch repos created dirs =>
      unfold load_metadata save_metadata
      simp only [Metadata.mk.injEq, true_and, and_true]
      constructor
      · exact metadata_repos_roundtrip repos
      · by_cases hd : dirs = []
        · simp [hd]
        · simp [hd]
  · intro hnone
    simp [load_metadata, hnone]
  · intro hmem href
    unfold save_metadata
    apply List.mem_map.mpr
    exact ⟨(k, some re), hmem, by simp [href]⟩

/-- Witness for C4's theorem: a concrete metadata value with an active
repo, a pinned repo and an empty-ref pinned repo survives the round trip;
an old-style document without `dirs` loads with an empty map; the
empty-ref entry serializes with its ref field omitted. -/
theorem metadata_roundtrip_witness :
    load_metadata (save_metadata (Metadata.mk "my-ws".toList "jg/my-ws".toList
        [("github.com/acme/api".toList, none),
         ("github.com/acme/proto".toList, some (WorkspaceRepoRef.mk "v1.0".toList)),
         ("github.com/acme/web".toList, some (WorkspaceRepoRef.mk []))]
        1700000000
        [("github.com/acme/api".toList, "acme-api".toList)]))
      = Metadata.mk "my-ws".toList "jg/my-ws".toList
        [("github.com/acme/api".toList, none),
         ("github.com/acme/proto".toList, some (WorkspaceRepoRef.mk "v1.0".toList)),
         ("github.com/acme/web".toList, some (WorkspaceRepoRef.mk []))]
        1700000000
        [("github.com/acme/api".toList, "acme-api".toList)]
    ∧ (load_metadata (MetadataDoc.mk "old".toList "old".toList [] 0 none)).dirs = []
    ∧ ("github.com/acme/web".toList, some (RepoRefDoc.mk none)) ∈
        (save_metadata (Metadata.mk "ws".toList "ws".toList
          [("github.com/acme/web".toList, some (WorkspaceRepoRef.mk []))] 0 [])).repos := by
  refine ⟨?_, ?_, ?_⟩
  · exact (metadata_roundtrip _ (MetadataDoc.mk [] [] [] 0 none) [] (WorkspaceRepoRef.mk [])).1
  · exact (metadata_roundtrip (Metadata.mk [] [] [] 0 []) _ [] (WorkspaceRepoRef.mk [])).2.1 rfl
  · exact (metadata_roundtrip (Metadata.mk "ws".toList "ws".toList
      [("github.com/acme/web".toList, some (WorkspaceRepoRef.mk []))] 0 [])
      (MetadataDoc.mk [] [] [] 0 none)
      "github.com/acme/web".toList (WorkspaceRepoRef.mk [])).2.2 (by simp) rfl

end Workspace

/-! ### Association-list model of `BTreeMap`

`BTreeMap`s are modelled as association lists with unique keys; `ainsert`
replaces an existing binding or appends a new one.  (A `BTreeMap` iterates
in sorted key order while the model keeps insertion order; the membership
and lookup properties proved below do not depend on iteration order.) -/

def alookup {κ α : Type} [DecidableEq κ] (m : List (κ × α)) (k : κ) : Option α :=
  (m.find? fun p => p.1 == k).map (·.2)

def ainsert {κ α : Type} [DecidableEq κ] (m : List (κ × α)) (k : κ) (v : α) :
    List (κ × α) :=
  if (alookup m k).isSome then m.map fun p => if p.1 == k then (k, v) else p
  else m ++ [(k, v)]

def aerase {κ α : Type} [DecidableEq κ] (m : List (κ × α)) (k : κ) : List (κ × α) :=
  m.filter fun p => !(p.1 == k)

theorem mem_ainsert {κ α : Type} [DecidableEq κ] {m : List (κ × α)} {k : κ} {v : α}
    {p : κ × α} (h : p ∈ ainsert m k v) : p = (k, v) ∨ p ∈ m := by
  unfold ainsert at h
  split at h
  · obtain ⟨q, hq, hqe⟩ := List.mem_map.mp h
    by_cases hk : q.1 == k
    · simp only [hk, if_true] at hqe
      exact Or.inl hqe.symm
    · simp only [hk, if_false, Bool.false_eq_true] at hqe
      exact Or.inr (hqe ▸ hq)
  · rcases List.mem_append.mp h with h1 | h2
    · exact Or.inr h1
    · exact Or.inl (by simpa using h2)

theorem mem_of_alookup {κ α : Type} [DecidableEq κ] {m : List (κ × α)} {k : κ} {v : α}
    (h : alookup m k = some v) : (k, v) ∈ m := by
  unfold alookup at h
  cases hf : m.find? fun p => p.1 == k with
  | none => rw [hf] at h; exact absurd h (by simp)
  | some q =>
    rw [hf] at h
    have hq := List.find?_some hf
    have hqm := List.mem_of_find?_eq_some hf
    cases q with
    | mk qk qv =>
      have hk : qk = k := by simpa using hq
      have hv : qv = v := by simpa using h
      subst hk; subst hv
      exact hqm

/-! ### `group` operations (claim C9)

Translated from src/src/group.rs.  Group names and repo identities only
need equality here, so both are modelled as `String`; the `Config` is
reduced to its `groups` map (the only field these operations touch). -/

namespace Group

structure GroupEntry where
  repos : List String
deriving DecidableEq, Repr

structure Config where
  groups : List (String × GroupEntry)
deriving DecidableEq, Repr

def create (cfg : Config) (name : String) (repos : List String) :
    Except String Config :=
  if (alookup cfg.groups name).isSome then .error "group already exists"
  else .ok ⟨ainsert cfg.groups name ⟨repos⟩⟩

def delete (cfg : Config) (name : String) : Except String Config :=
  if (alookup cfg.groups name).isSome then .ok ⟨aerase cfg.groups name⟩
  else .error "group not found"

def get (cfg : Config) (name : String) : Except String (List String) :=
  match alookup cfg.groups name with
  | some g => .ok g.repos
  | none => .error "group not found"

/-- The duplicate checks of `add_repos`'s loop: a `HashSet`-backed scan of
the add list (`!seen.insert(...)` errors) followed by the membership check
against the group. -/
def checkAdd (gRepos seen : List String) : List String → Except String Unit
  | [] => .ok ()
  | r :: rest =>
    if r ∈ seen then .error "duplicate repo in add list"
    else if r ∈ gRepos then .error "repo already in group"
    else checkAdd gRepos (r :: seen) rest

def add_repos (cfg : Config) (name : String) (repos : List String) :
    Except String Config :=
  match alookup cfg.groups name with
  | none => .error "group not found"
  | some g =>
    match checkAdd g.repos [] repos with
    | .error e => .error e
    | .ok _ => .ok ⟨ainsert cfg.groups name ⟨g.repos ++ repos⟩⟩

def remove_repos (cfg : Config) (name : String) (repos : List String) :
    Except String Config :=
  match alookup cfg.groups name with
  | none => .error "group not found"
  | some g =>
    match repos.find? fun r => !(g.repos.contains r) with
    | some _ => .error "repo not in group"
    | none => .ok ⟨ainsert cfg.groups name ⟨g.repos.filter fun r => ¬ r ∈ repos⟩⟩

/-- The invariant of claim C9: no group contains the same identity twice. -/
def GroupsNodup (cfg : Config) : Prop :=
  ∀ p ∈ cfg.groups, p.2.repos.Nodup

instance : DecidablePred GroupsNodup := fun cfg =>
  List.decidableBAll _ cfg.groups

theorem checkAdd_ok {gRepos : List String} :
    ∀ {seen rest : List String}, checkAdd gRepos seen rest = .ok () →
      rest.Nodup ∧ ∀ r ∈ rest, r ∉ gRepos ∧ r ∉ seen := by
  intro seen rest
  induction rest generalizing seen with
  | nil => intro _; exact ⟨List.nodup_nil, by simp⟩
  | cons r rest ih =>
    intro h
    unfold checkAdd at h
    split at h
    · exact absurd h (by simp)
    · split at h
      · exact absurd h (by simp)
      · obtain ⟨hnd, hall⟩ := ih h
        refine ⟨List.nodup_cons.mpr ⟨fun hmem => ?_, hnd⟩, ?_⟩
        · exact (hall r hmem).2 (List.mem_cons_self r seen)
        · intro x hx
          rcases List.mem_cons.mp hx with hx1 | hx2
          · subst hx1
            refine ⟨by assumption, by assumption⟩
          · obtain ⟨hg, hs⟩ := hall x hx2
            exact ⟨hg, fun hxs => hs (List.mem_cons_of_mem r hxs)⟩

/-- Claim C9 (corrected claim): group `delete`, `add_repos` and
`remove_repos` preserve the invariant that no group contains a duplicate
identity (`add_repos` rejects duplicate additions outright), and `create`
preserves it when the supplied initial repo list is itself duplicate-free;
`create` stores the supplied list verbatim, so a duplicate in the initial
list is the one way a stored group can acquire duplicate entries. -/
theorem group_ops_preserve_nodup (cfg cfg' : Config) (name : String)
    (repos : List String) (hinv : GroupsNodup cfg) :
    (repos.Nodup → create cfg name repos = .ok cfg' → GroupsNodup cfg')
    ∧ (delete cfg name = .ok cfg' → GroupsNodup cfg')
    ∧ (add_repos cfg name repos = .ok cfg' → GroupsNodup cfg')
    ∧ (remove_repos cfg name repos = .ok cfg' → GroupsNodup cfg') := by
  refine ⟨?_, ?_, ?_, ?_⟩
  · intro hnd h
    unfold create at h
    split at h
    · exact absurd h (by simp)
    · simp only [Except.ok.injEq] at h
      subst h
      intro p hp
      rcases mem_ainsert hp with h1 | h2
      · subst h1; exact hnd
      · exact hinv p h2
  · intro h
    unfold delete at h
    split at h
    · simp only [Except.ok.injEq] at h
      subst h
      intro p hp
      exact hinv p (List.mem_of_mem_filter hp)
    · exact absurd h (by simp)
  · intro h
    unfold add_repos at h
    cases hl : alookup cfg.groups name with
    | none => rw [hl] at h; exact absurd h (by simp)
    | some g =>
      rw [hl] at h
      simp only at h
      cases hc : checkAdd g.repos [] repos with
      | error e => rw [hc] at h; exact absurd h (by simp)
      | ok u =>
        cases u
        rw [hc] at h
        simp only [Except.ok.injEq] at h
        subst h
        intro p hp
        rcases mem_ainsert hp with h1 | h2
        · subst h1
          obtain ⟨hndr, hall⟩ := checkAdd_ok hc
          have hg : g.repos.Nodup := hinv (name, g) (mem_of_alookup hl)
          exact List.nodup_append.mpr
            ⟨hg, hndr, fun a ha hb => (hall a hb).1 ha⟩
        · exact hinv p h2
  · intro h
    unfold remove_repos at h
    cases hl : alookup cfg.groups name with
    | none => rw [hl] at h; exact absurd h (by simp)
    | some g =>
      rw [hl] at h
      simp only at h
      cases hf : repos.find? fun r => !(g.repos.contains r) with
      | some q => rw [hf] at h; exact absurd h (by simp)
      | none =>
        rw [hf] at h
        simp only [Except.ok.injEq] at h
        subst h
        intro p hp
        rcases mem_ainsert hp with h1 | h2
        · subst h1
          exact List.Nodup.filter _ (hinv (name, g) (mem_of_alookup hl))
        · exact hinv p h2

/-- Witness for C9's theorem: adding `"b"` to a singleton group `"g" =
["a"]` succeeds and the resulting config still has duplicate-free groups. -/
theorem group_ops_preserve_nodup_witness :
    GroupsNodup (Config.mk [("g", GroupEntry.mk ["a", "b"])]) := by
  exact (group_ops_preserve_nodup
    (Config.mk [("g", GroupEntry.mk ["a"])])
    (Config.mk [("g", GroupEntry.mk ["a", "b"])])
    "g" ["b"] (by decide)).2.2.1 (by rfl)

/-- Counterexample to C9 as frozen: `create` stores the initial repo list
verbatim, so creating a group from the duplicate list `["a", "a"]`
succeeds and stores a group with duplicate entries. -/
theorem group_create_duplicate_counterexample :
    create (Config.mk []) "g" ["a", "a"]
      = .ok (Config.mk [("g", GroupEntry.mk ["a", "a"])])
    ∧ ¬ GroupsNodup (Config.mk [("g", GroupEntry.mk ["a", "a"])]) := by
  exact ⟨rfl, by decide⟩

end Group

/-! ### Workspace lifecycle: collision handling and the removal safety
gates (claims C2, C3, C10)

Translated from src/src/workspace.rs.  Filesystem mutations (directory
renames, clones, deletions, the metadata save) are recorded as a trace of
`FsOp`s; the git subprocess queries made by the safety gates are an oracle
keyed by the clone's directory name.  Operations return `Except`, so a
rejected call produces an error and no operation trace — mirroring the
source, where every gate check precedes the first destructive action. -/

namespace Workspace

inductive FsOp
  | renameDir (oldDir newDir : Str)
  | cloneRepo (id dir : Str)
  | removeDir (d : Str)
  | removeWorkspaceDir
  | saveMeta
deriving DecidableEq, Repr

/-- `Metadata::dir_name`: the `dirs` override if present, else the parsed
repo segment. -/
def dir_name (meta : Metadata) (id : Str) : Except String Str :=
  match alookup meta.dirs id with
  | some d => .ok d
  | none =>
    match Giturl.Parsed.from_identity id with
    | .ok p => .ok p.repo
    | .error e => .error e

/-- `owner.replace('/', "-")`. -/
def dashOwner (o : Str) : Str := o.map fun c => if c = '/' then '-' else c

/-- The disambiguated directory name `format!("{}-{}", owner_dashed, repo)`. -/
def overrideName (p : Giturl.Parsed) : Str := dashOwner p.owner ++ '-' :: p.repo

def parseAll : List Str → Except String (List (Str × Giturl.Parsed))
  | [] => .ok []
  | id :: rest =>
    match Giturl.Parsed.from_identity id with
    | .error e => .error e
    | .ok p =>
      match parseAll rest with
      | .error e => .error e
      | .ok l => .ok ((id, p) :: l)

/-- `compute_dir_names`: parse every identity, group by repo segment, and
emit an `owner-repo` override for every member of a group of two or more.
(The source builds a `by_repo: BTreeMap` and iterates its groups; the
model tests each identity's group size directly — same membership.) -/
def compute_dir_names (ids : List Str) : Except String (List (Str × Str)) :=
  match parseAll ids with
  | .error e => .error e
  | .ok parsed =>
    .ok (parsed.filterMap fun q =>
      if 2 ≤ (parsed.filter fun q2 => q2.2.repo == q.2.repo).length
      then some (q.1, overrideName q.2) else none)

/-- `is_active`: an absent entry or an empty pinned ref. -/
def isActive (e : Option WorkspaceRepoRef) : Bool :=
  match e with
  | none => true
  | some re => re.ref == []

/-- The collision scan of `add_repos`: the first existing identity whose
current directory name equals the new repo's default directory. -/
def findCollision (meta : Metadata) (dflt : Str) : List Str → Except String (Option Str)
  | [] => .ok none
  | e :: rest =>
    match dir_name meta e with
    | .error err => .error err
    | .ok d => if d = dflt then .ok (some e) else findCollision meta dflt rest

/-- One iteration of the `add_repos` loop for identity `id` with ref `r`. -/
def add_repos_step (acc : Metadata × List FsOp) (idr : Str × Str) :
    Except String (Metadata × List FsOp) :=
  let meta := acc.1
  let ops := acc.2
  let id := idr.1
  let r := idr.2
  if (alookup meta.repos id).isSome then .ok (meta, ops)
  else
    match Giturl.Parsed.from_identity id with
    | .error e => .error e
    | .ok newParsed =>
      match findCollision meta newParsed.repo (meta.repos.map (·.1)) with
      | .error e => .error e
      | .ok (some existingId) =>
        match Giturl.Parsed.from_identity existingId with
        | .error e => .error e
        | .ok existingParsed =>
          match dir_name meta existingId with
          | .error e => .error e
          | .ok oldDir =>
            let newExistingDir := overrideName existingParsed
            let newDir := overrideName newParsed
            .ok ({ meta with
                    repos := ainsert meta.repos id (if r = [] then none else some ⟨r⟩),
                    dirs := ainsert (ainsert meta.dirs existingId newExistingDir) id newDir },
                 ops ++ [.renameDir oldDir newExistingDir, .cloneRepo id newDir])
      | .ok none =>
        match dir_name meta id with
        | .error e => .error e
        | .ok dn =>
          .ok ({ meta with
                  repos := ainsert meta.repos id (if r = [] then none else some ⟨r⟩) },
               ops ++ [.cloneRepo id dn])

def add_repos_loop : List (Str × Str) → (Metadata × List FsOp) →
    Except String (Metadata × List FsOp)
  | [], acc => .ok acc
  | idr :: rest, acc =>
    match add_repos_step acc idr with
    | .error e => .error e
    | .ok acc' => add_repos_loop rest acc'

/-- `add_repos`: iterate the repo refs, then save the metadata. -/
def add_repos (meta : Metadata) (repo_refs : List (Str × Str)) :
    Except String (Metadata × List FsOp) :=
  match add_repos_loop repo_refs (meta, []) with
  | .error e => .error e
  | .ok (m, ops) => .ok (m, ops ++ [.saveMeta])

/-- Oracle for the git queries the removal safety gates make in one clone
directory: `changed_file_count`, `ahead_count`, `fetch_remote origin`
(result ignored apart from the staleness annotation), `branch_exists`,
`default_branch_for_remote origin` / `default_branch`, `ref_exists`, and
the `branch_safety` verdict as a function of the target. -/
structure RepoGit where
  changed : Except String Nat
  ahead : Except String Nat
  fetchOriginOk : Bool
  branchExists : Str → Bool
  defBranchRemote : Except String Str
  defBranchLocal : Except String Str
  refExists : Str → Bool
  safety : Str → Str → Git.BranchSafety

def originSlash : Str := "origin/".toList

def pendingSuffix : Str := " (pending changes)".toList

def pushedSuffix : Str := " (unmerged branch, but pushed to remote)".toList

def unmergedSuffix : Str := " (unmerged branch)".toList

def pushedSuffixW : Str := " (unmerged, but pushed to remote)".toList

/-- `default_branch_for_remote(origin).or_else(|_| default_branch()).unwrap_or_default()`. -/
def dbOf (g : RepoGit) : Str :=
  match g.defBranchRemote with
  | .ok b => b
  | .error _ =>
    match g.defBranchLocal with
    | .ok b => b
    | .error _ => []

/-- The merge target: `origin/<default>` if that ref exists, else the bare
default branch name. -/
def targetOf (g : RepoGit) (db : Str) : Str :=
  if g.refExists (originSlash ++ db) then originSlash ++ db else db

/-- One iteration of the `remove_repos` safety loop: the problem line for
`id`, if any (`Ok none` = not flagged; `Err` = a `dir_name` failure, which
the `?` operator propagates in the source). -/
def flagLine (env : Str → RepoGit) (meta : Metadata) (id : Str) :
    Except String (Option Str) :=
  match alookup meta.repos id with
  | none => .ok none
  | some entry =>
    if isActive entry then
      match dir_name meta id with
      | .error e => .error e
      | .ok dn =>
        let g := env dn
        if 0 < exceptD g.changed 0 ∨ 0 < exceptD g.ahead 0 then
          .ok (some (id ++ pendingSuffix))
        else if g.branchExists meta.branch then
          let db := dbOf g
          if db = [] then .ok none
          else
            match g.safety meta.branch (targetOf g db) with
            | .Merged => .ok none
            | .SquashMerged => .ok none
            | .PushedToRemote => .ok (some (id ++ pushedSuffix))
            | .Unmerged => .ok (some (id ++ unmergedSuffix))
        else .ok none
    else .ok none

/-- The `problems` list accumulated by the `remove_repos` safety loop. -/
def problemsFor (env : Str → RepoGit) (meta : Metadata) :
    List Str → Except String (List Str)
  | [] => .ok []
  | id :: rest =>
    match flagLine env meta id with
    | .error e => .error e
    | .ok none => problemsFor env meta rest
    | .ok (some l) =>
      match problemsFor env meta rest with
      | .error e => .error e
      | .ok ls => .ok (l :: ls)

inductive RmErr
  | notInWorkspace (id : Str)
  | flagged (problems : List Str)
  | other (e : String)
deriving DecidableEq, Repr

/-- The destruction loop of `remove_repos`: delete each clone directory
and drop the identity from `repos` and `dirs`. -/
def removeLoop : List Str → Metadata → List FsOp → Except String (Metadata × List FsOp)
  | [], meta, ops => .ok (meta, ops)
  | id :: rest, meta, ops =>
    match dir_name meta id with
    | .error e => .error e
    | .ok dn =>
      removeLoop rest
        { meta with repos := aerase meta.repos id, dirs := aerase meta.dirs id }
        (ops ++ [.removeDir dn])

/-- Renames for identities whose recomputed override differs from the
stored one (failures are warnings in the source). -/
def renameOps (oldDirs newDirs : List (Str × Str)) : List FsOp :=
  newDirs.filterMap fun p =>
    match alookup oldDirs p.1 with
    | some od => if od ≠ p.2 then some (.renameDir od p.2) else none
    | none => none

/-- Renames back to the short name for identities that were disambiguated
but are collision-free after the removal. -/
def undoOps (oldDirs newDirs : List (Str × Str)) :
    List Str → Except String (List FsOp)
  | [] => .ok []
  | id :: rest =>
    match alookup oldDirs id with
    | some od =>
      if (alookup newDirs id).isNone then
        match Giturl.Parsed.from_identity id with
        | .error e => .error e
        | .ok p =>
          match undoOps oldDirs newDirs rest with
          | .error e => .error e
          | .ok ops => .ok (.renameDir od p.repo :: ops)
      else undoOps oldDirs newDirs rest
    | none => undoOps oldDirs newDirs rest

/-- `remove_repos(ws_dir, identities_to_remove, force)`: presence check,
then (unless forced) the safety gate, then destruction and the `dirs`
recomputation.  The flagged-rejection error carries the accumulated
problem lines (rendered by the source as one `- ...` line each under
`"cannot remove repos:"`). -/
def remove_repos (env : Str → RepoGit) (meta : Metadata) (ids : List Str)
    (force : Bool) : Except RmErr (Metadata × List FsOp) :=
  match ids.find? fun id => (alookup meta.repos id).isNone with
  | some id => .error (.notInWorkspace id)
  | none =>
    let gate : Except RmErr Unit :=
      if force then .ok ()
      else
        match problemsFor env meta ids with
        | .error e => .error (.other e)
        | .ok [] => .ok ()
        | .ok probs => .error (.flagged probs)
    match gate with
    | .error e => .error e
    | .ok _ =>
      match removeLoop ids meta [] with
      | .error e => .error (.other e)
      | .ok (meta', ops) =>
        match compute_dir_names (meta'.repos.map (·.1)) with
        | .error e => .error (.other e)
        | .ok newDirs =>
          match undoOps meta'.dirs newDirs (meta'.repos.map (·.1)) with
          | .error e => .error (.other e)
          | .ok uops =>
            .ok ({ meta' with dirs := newDirs },
              ops ++ renameOps meta'.dirs newDirs ++ uops ++ [.saveMeta])

/-- The active-repo collection of workspace `remove`: `(identity, dir
name, fetch_failed)` for each active repo, in metadata order (`dir_name`
failures propagate, also for context repos). -/
def activeList (env : Str → RepoGit) (meta : Metadata) :
    List (Str × Option WorkspaceRepoRef) → Except String (List (Str × Str × Bool))
  | [] => .ok []
  | (id, entry) :: rest =>
    match dir_name meta id with
    | .error e => .error e
    | .ok dn =>
      match activeList env meta rest with
      | .error e => .error e
      | .ok l =>
        if isActive entry then .ok ((id, dn, !(env dn).fetchOriginOk) :: l)
        else .ok l

/-- The pre-flight loop of workspace `remove`: the unmerged entries with
their staleness flag.  A repo whose clone lacks the workspace branch is
skipped; a repo whose default branch cannot be resolved is skipped with a
warning. -/
def unmergedList (env : Str → RepoGit) (meta : Metadata)
    (actives : List (Str × Str × Bool)) : List (Str × Bool) :=
  actives.filterMap fun a =>
    let g := env a.2.1
    if g.branchExists meta.branch then
      match g.defBranchRemote with
      | .ok db =>
        match g.safety meta.branch (targetOf g db) with
        | .Merged => none
        | .SquashMerged => none
        | .PushedToRemote => some (a.1 ++ pushedSuffixW, a.2.2)
        | .Unmerged => some (a.1, a.2.2)
      | .error _ =>
        match g.defBranchLocal with
        | .ok db =>
          match g.safety meta.branch (targetOf g db) with
          | .Merged => none
          | .SquashMerged => none
          | .PushedToRemote => some (a.1 ++ pushedSuffixW, a.2.2)
          | .Unmerged => some (a.1, a.2.2)
        | .error _ => none
    else none

def staleSuffix : Str := " (fetch failed, local data may be stale)".toList

/-- Workspace `remove(name, force)`: collect active repos, run the
pre-flight gate unless forced, then delete the workspace directory tree. -/
def remove (env : Str → RepoGit) (meta : Metadata) (force : Bool) :
    Except RmErr (List FsOp) :=
  match activeList env meta meta.repos with
  | .error e => .error (.other e)
  | .ok actives =>
    let unmerged := unmergedList env meta actives
    if force = false ∧ unmerged ≠ [] then
      .error (.flagged (unmerged.map fun u =>
        u.1 ++ (if u.2 then staleSuffix else [])))
    else .ok [.removeWorkspaceDir]

end Workspace

namespace Workspace

/-- Claim C3 (code bug, evaluated at the failing input): starting from a
workspace holding `h/a/u`, adding `h/b/u` disambiguates both clones
(`dirs` gets both overrides), but then adding `h/c/u` — whose repo segment
`u` is shared with the two already-disambiguated repos — finds no
directory-name collision (the existing clones sit at `a-u` and `b-u`), so
the new repo is cloned at `u` and receives *no* `dirs` override, although
`compute_dir_names` over the three identities assigns all three an
override.  The workspace invariant "`dirs` contains an override for
exactly the identities whose parsed repo name is shared" is violated. -/
theorem add_repos_collision_gap :
    add_repos (Metadata.mk "w".toList "w".toList [("h/a/u".toList, none)] 0 [])
        [("h/b/u".toList, [])]
      = .ok (Metadata.mk "w".toList "w".toList
            [("h/a/u".toList, none), ("h/b/u".toList, none)] 0
            [("h/a/u".toList, "a-u".toList), ("h/b/u".toList, "b-u".toList)],
          [.renameDir "u".toList "a-u".toList,
           .cloneRepo "h/b/u".toList "b-u".toList, .saveMeta])
    ∧ add_repos (Metadata.mk "w".toList "w".toList
            [("h/a/u".toList, none), ("h/b/u".toList, none)] 0
            [("h/a/u".toList, "a-u".toList), ("h/b/u".toList, "b-u".toList)])
        [("h/c/u".toList, [])]
      = .ok (Metadata.mk "w".toList "w".toList
            [("h/a/u".toList, none), ("h/b/u".toList, none), ("h/c/u".toList, none)] 0
            [("h/a/u".toList, "a-u".toList), ("h/b/u".toList, "b-u".toList)],
          [.cloneRepo "h/c/u".toList "u".toList, .saveMeta])
    ∧ alookup [("h/a/u".toList, "a-u".toList), ("h/b/u".toList, "b-u".toList)]
        "h/c/u".toList = none
    ∧ (Giturl.Parsed.from_identity "h/c/u".toList).map (·.repo) = .ok "u".toList
    ∧ (Giturl.Parsed.from_identity "h/a/u".toList).map (·.repo) = .ok "u".toList
    ∧ compute_dir_names ["h/a/u".toList, "h/b/u".toList, "h/c/u".toList]
      = .ok [("h/a/u".toList, "a-u".toList), ("h/b/u".toList, "b-u".toList),
             ("h/c/u".toList, "c-u".toList)] := by
  exact ⟨by rfl, by rfl, by rfl, by rfl, by rfl, by rfl⟩

/-- The per-identity flagging condition of the `remove_repos` safety gate,
stated from the claim's words: the repo is active and has uncommitted
changes or a non-zero ahead count, or (when its clone has the workspace
branch as a local branch and a non-empty default branch) a branch-safety
verdict of `PushedToRemote` or `Unmerged`. -/
def FlaggedSpec (env : Str → RepoGit) (meta : Metadata) (id : Str) : Prop :=
  ∃ entry dn, alookup meta.repos id = some entry ∧ isActive entry = true
    ∧ dir_name meta id = .ok dn
    ∧ (0 < exceptD (env dn).changed 0 ∨ 0 < exceptD (env dn).ahead 0
      ∨ ((env dn).branchExists meta.branch = true ∧ dbOf (env dn) ≠ []
        ∧ ((env dn).safety meta.branch (targetOf (env dn) (dbOf (env dn)))
              = .PushedToRemote
          ∨ (env dn).safety meta.branch (targetOf (env dn) (dbOf (env dn)))
              = .Unmerged)))

theorem flagLine_some_iff (env : Str → RepoGit) (meta : Metadata) (id : Str) :
    (∃ l, flagLine env meta id = .ok (some l)) ↔ FlaggedSpec env meta id := by
  unfold flagLine FlaggedSpec
  cases hent : alookup meta.repos id with
  | none => simp
  | some entry =>
    cases hact : isActive entry with
    | false => simp [hact]
    | true =>
      cases hdn : dir_name meta id with
      | error e => simp [hact, hdn]
      | ok dn =>
        simp only [if_true, Option.some.injEq, exists_eq_left', hact, hdn]
        by_cases hcnt : 0 < exceptD (env dn).changed 0 ∨ 0 < exceptD (env dn).ahead 0
        · simp only [hcnt, if_true, Except.ok.injEq, Option.some.injEq]
          constructor
          · intro _
            refine ⟨entry, dn, rfl, hact, rfl, ?_⟩
            rcases hcnt with h | h
            · exact Or.inl h
            · exact Or.inr (Or.inl h)
          · intro _
            exact ⟨id ++ pendingSuffix, rfl⟩
        · rw [if_neg hcnt]
          cases hbe : (env dn).branchExists meta.branch with
          | false => simp [hbe, hcnt]
          | true =>
            by_cases hdb : dbOf (env dn) = []
            · simp [hdb, hcnt, hbe]
            · rw [if_neg hdb]
              cases hsf : (env dn).safety meta.branch (targetOf (env dn) (dbOf (env dn)))
                <;> simp [hsf, hcnt, hbe, hdb, hact]

/-- Claim C2: `remove_repos` is atomic on rejection.  If any requested
identity is absent from the workspace it fails with a not-in-workspace
error; when `force` is false and the safety loop produced a non-empty
problem list, it fails with exactly that multi-line list; the list
contains a line for an identity if and only if the identity is flagged
(active with pending changes or a non-zero ahead count, or a
`PushedToRemote`/`Unmerged` branch-safety verdict), and each line is the
identity followed by its reason suffix.  In both rejection cases the model
returns an error carrying no filesystem operations, mirroring the source,
where every gate check precedes the first destructive action — metadata,
`repos`/`dirs` and all clone directories are untouched. -/
theorem remove_repos_atomic_rejection (env : Str → RepoGit) (meta : Metadata)
    (ids : List Str) :
    (∀ force, (∃ id ∈ ids, alookup meta.repos id = none) →
      ∃ id, id ∈ ids ∧ alookup meta.repos id = none
        ∧ remove_repos env meta ids force = .error (.notInWorkspace id))
    ∧ ((∀ id ∈ ids, (alookup meta.repos id).isSome) →
        ∀ probs, problemsFor env meta ids = .ok probs → probs ≠ [] →
        remove_repos env meta ids false = .error (.flagged probs))
    ∧ (∀ id, (∃ l, flagLine env meta id = .ok (some l)) ↔ FlaggedSpec env meta id)
    ∧ (∀ probs, problemsFor env meta ids = .ok probs →
        (∀ id ∈ ids, ∀ l, flagLine env meta id = .ok (some l) → l ∈ probs)
        ∧ (∀ l ∈ probs, ∃ id ∈ ids, flagLine env meta id = .ok (some l)))
    ∧ (∀ id l, flagLine env meta id = .ok (some l) →
        l = id ++ pendingSuffix ∨ l = id ++ pushedSuffix ∨ l = id ++ unmergedSuffix) := by
  refine ⟨?_, ?_, flagLine_some_iff env meta, ?_, ?_⟩
  · intro force hex
    cases hfind : ids.find? (fun id => (alookup meta.repos id).isNone) with
    | none =>
      exfalso
      obtain ⟨id, hid, hnone⟩ := hex
      have := List.find?_eq_none.mp hfind id hid
      simp [hnone] at this
    | some j =>
      have hjp := List.find?_some hfind
      have hjm := List.mem_of_find?_eq_some hfind
      refine ⟨j, hjm, by simpa using hjp, ?_⟩
      unfold remove_repos
      rw [hfind]
  · intro hall probs hprobs hne
    have hfind : ids.find? (fun id => (alookup meta.repos id).isNone) = none := by
      apply List.find?_eq_none.mpr
      intro x hx
      have hs := hall x hx
      cases halo : alookup meta.repos x with
      | none => rw [halo] at hs; simp at hs
      | some v => simp [halo]
    unfold remove_repos
    rw [hfind]
    simp only [Bool.false_eq_true, if_false]
    rw [hprobs]
    cases probs with
    | nil => exact absurd rfl hne
    | cons p ps => rfl
  · intro probs hprobs
    induction ids generalizing probs with
    | nil =>
      constructor
      · intro id hid; exact absurd hid (by simp)
      · intro l hl
        unfold problemsFor at hprobs
        simp only [Except.ok.injEq] at hprobs
        subst hprobs
        exact absurd hl (by simp)
    | cons id rest ih =>
      unfold problemsFor at hprobs
      cases hfl : flagLine env meta id with
      | error e => rw [hfl] at hprobs; exact absurd hprobs (by simp)
      | ok o =>
        rw [hfl] at hprobs
        cases o with
        | none =>
          simp only at hprobs
          obtain ⟨ih1, ih2⟩ := ih probs hprobs
          constructor
          · intro x hx l hl
            rcases List.mem_cons.mp hx with hx1 | hx2
            · subst hx1; rw [hfl] at hl; exact absurd hl (by simp)
            · exact ih1 x hx2 l hl
          · intro l hl
            obtain ⟨x, hx, hxl⟩ := ih2 l hl
            exact ⟨x, List.mem_cons_of_mem id hx, hxl⟩
        | some l0 =>
          simp only at hprobs
          cases hrest : problemsFor env meta rest with
          | error e => rw [hrest] at hprobs; exact absurd hprobs (by simp)
          | ok ls =>
            rw [hrest] at hprobs
            simp only [Except.ok.injEq] at hprobs
            subst hprobs
            obtain ⟨ih1, ih2⟩ := ih ls hrest
            constructor
            · intro x hx l hl
              rcases List.mem_cons.mp hx with hx1 | hx2
              · subst hx1
                rw [hfl] at hl
                simp only [Except.ok.injEq, Option.some.injEq] at hl
                subst hl
                exact List.mem_cons_self l0 ls
              · exact List.mem_cons_of_mem l0 (ih1 x hx2 l hl)
            · intro l hl
              rcases List.mem_cons.mp hl with hl1 | hl2
              · subst hl1
                exact ⟨id, List.mem_cons_self id rest, hfl⟩
              · obtain ⟨x, hx, hxl⟩ := ih2 l hl2
                exact ⟨x, List.mem_cons_of_mem id hx, hxl⟩
  · intro id l hl
    unfold flagLine at hl
    cases hent : alookup meta.repos id with
    | none => rw [hent] at hl; exact absurd hl (by simp)
    | some entry =>
      rw [hent] at hl
      simp only at hl
      cases hact : isActive entry with
      | false => rw [hact] at hl; exact absurd hl (by simp)
      | true =>
        rw [hact] at hl
        simp only [if_true] at hl
        cases hdn : dir_name meta id with
        | error e => rw [hdn] at hl; exact absurd hl (by simp)
        | ok dn =>
          rw [hdn] at hl
          simp only at hl
          split at hl
          · simp only [Except.ok.injEq, Option.some.injEq] at hl
            exact Or.inl hl.symm
          · split at hl
            · split at hl
              · exact absurd hl (by simp)
              · split at hl
                · exact absurd hl (by simp)
                · exact absurd hl (by simp)
                · simp only [Except.ok.injEq, Option.some.injEq] at hl
                  exact Or.inr (Or.inl hl.symm)
                · simp only [Except.ok.injEq, Option.some.injEq] at hl
                  exact Or.inr (Or.inr hl.symm)
            · exact absurd hl (by simp)

end Workspace

namespace Workspace

theorem unmergedList_eq_nil_of_no_branch (env : Str → RepoGit) (meta : Metadata)
    (actives : List (Str × Str × Bool))
    (hall : ∀ p ∈ actives, (env p.2.1).branchExists meta.branch = false) :
    unmergedList env meta actives = [] := by
  apply List.filterMap_eq_nil.mpr
  intro a ha
  simp [hall a ha]

/-- Claim C10: in the non-force safety gates of both `remove_repos` and
workspace `remove`, branch safety is consulted only when the workspace
branch exists as a local branch in the repo's clone.  An active repo whose
clone lacks that branch (and, for `remove_repos`, with zero changed files
and zero ahead count) is never flagged — whatever the safety oracle would
answer — and the removal proceeds without any Merged/Unmerged verdict:
`remove` deletes the workspace and `remove_repos` can no longer fail with
a flagged error. -/
theorem safety_gate_gap (env : Str → RepoGit) (meta : Metadata) (ids : List Str)
    (actives : List (Str × Str × Bool)) :
    (∀ id entry dn, alookup meta.repos id = some entry → isActive entry = true →
      dir_name meta id = .ok dn →
      (env dn).branchExists meta.branch = false →
      exceptD (env dn).changed 0 = 0 → exceptD (env dn).ahead 0 = 0 →
      flagLine env meta id = .ok none)
    ∧ ((∀ p ∈ actives, (env p.2.1).branchExists meta.branch = false) →
        unmergedList env meta actives = [])
    ∧ (activeList env meta meta.repos = .ok actives →
        (∀ p ∈ actives, (env p.2.1).branchExists meta.branch = false) →
        remove env meta false = .ok [.removeWorkspaceDir])
    ∧ ((∀ id ∈ ids, flagLine env meta id = .ok none) →
        problemsFor env meta ids = .ok [])
    ∧ ((∀ id ∈ ids, (alookup meta.repos id).isSome) →
        problemsFor env meta ids = .ok [] →
        ∀ probs, remove_repos env meta ids false ≠ .error (.flagged probs)) := by
  refine ⟨?_, unmergedList_eq_nil_of_no_branch env meta actives, ?_, ?_, ?_⟩
  · intro id entry dn hent hact hdn hbe hch hah
    unfold flagLine
    rw [hent]
    simp [hact, hdn, hch, hah, hbe]
  · intro hact hall
    unfold remove
    rw [hact]
    simp [unmergedList_eq_nil_of_no_branch env meta actives hall]
  · intro hall
    induction ids with
    | nil => rfl
    | cons id rest ih =>
      unfold problemsFor
      rw [hall id (List.mem_cons_self id rest)]
      exact ih fun x hx => hall x (List.mem_cons_of_mem id hx)
  · intro hall hprobs0 probs hEq
    have hfind : ids.find? (fun id => (alookup meta.repos id).isNone) = none := by
      apply List.find?_eq_none.mpr
      intro x hx
      have hs := hall x hx
      cases halo : alookup meta.repos x with
      | none => rw [halo] at hs; simp at hs
      | some v => simp [halo]
    unfold remove_repos at hEq
    rw [hfind] at hEq
    simp only [Bool.false_eq_true, if_false] at hEq
    rw [hprobs0] at hEq
    simp only at hEq
    cases hrl : removeLoop ids meta [] with
    | error e => rw [hrl] at hEq; simp at hEq
    | ok p =>
      rw [hrl] at hEq
      cases p with
      | mk m' ops =>
        simp only at hEq
        cases hcd : compute_dir_names (m'.repos.map (·.1)) with
        | error e => rw [hcd] at hEq; simp at hEq
        | ok newDirs =>
          rw [hcd] at hEq
          simp only at hEq
          cases huo : undoOps m'.dirs newDirs (m'.repos.map (·.1)) with
          | error e => rw [huo] at hEq; simp at hEq
          | ok uops => rw [huo] at hEq; simp at hEq

/-- A clone oracle reporting one uncommitted change (everything else
clean), used to exercise the C2 rejection path. -/
def gateEnvPending : Str → RepoGit := fun _ =>
  { changed := .ok 1, ahead := .ok 0, fetchOriginOk := true,
    branchExists := fun _ => false, defBranchRemote := .error "x",
    defBranchLocal := .error "x", refExists := fun _ => false,
    safety := fun _ _ => .Unmerged }

/-- A one-repo workspace metadata value for the gate witnesses. -/
def gateMeta : Metadata :=
  Metadata.mk "w".toList "w".toList [("h/a/u".toList, none)] 0 []

/-- Witness for C2's theorem: removing the only repo of `gateMeta` without
force, while its clone reports a pending change, is rejected with the
one-line problem list naming that identity. -/
theorem remove_repos_atomic_rejection_witness :
    remove_repos gateEnvPending gateMeta ["h/a/u".toList] false
      = .error (.flagged ["h/a/u (pending changes)".toList]) := by
  exact (remove_repos_atomic_rejection gateEnvPending gateMeta ["h/a/u".toList]).2.1
    (by decide) ["h/a/u (pending changes)".toList] (by rfl) (by simp)

/-- A clone oracle whose clone lacks the workspace branch and is otherwise
clean, but whose branch-safety verdict would be `Unmerged` for any target:
the gap of claim C10 means that verdict is never consulted. -/
def gapEnv : Str → RepoGit := fun _ =>
  { changed := .ok 0, ahead := .ok 0, fetchOriginOk := true,
    branchExists := fun _ => false, defBranchRemote := .ok "main".toList,
    defBranchLocal := .error "x", refExists := fun _ => true,
    safety := fun _ _ => .Unmerged }

/-- Witness for C10's theorem: under `gapEnv` the only repo of `gateMeta`
is not flagged and the workspace removal proceeds, although the safety
oracle would answer `Unmerged`. -/
theorem safety_gate_gap_witness :
    flagLine gapEnv gateMeta "h/a/u".toList = .ok none
    ∧ remove gapEnv gateMeta false = .ok [.removeWorkspaceDir] := by
  constructor
  · exact (safety_gate_gap gapEnv gateMeta [] []).1 "h/a/u".toList none "u".toList
      (by rfl) (by rfl) (by rfl) (by rfl) (by rfl) (by rfl)
  · exact (safety_gate_gap gapEnv gateMeta []
      [("h/a/u".toList, "u".toList, false)]).2.2.1 (by rfl) (by decide)

end Workspace
